import Mathlib

/-!
Shallow embedding of `pkg/config/configuration.go` (access-control decision
engine and secrets-scope engine), with theorems checking the specification's
claims against it.

Modelling conventions:
* Go strings are Lean `String`s.  Go's byte-wise operators on strings are
  modelled character-wise on `String.data` (UTF-8 preserves code-point
  order, so byte-wise and character-wise lexicographic comparison agree):
  `strLt` models Go `<` on strings, `hasPrefixGo` models
  `strings.HasPrefix`, `toLowerGo` models `strings.ToLower` and `eqFold`
  models `strings.EqualFold` (the code only compares ASCII action
  literals, where folding is lower-casing).
* Go slices become `List`s; the `map[string]AppPolicySpec` becomes an
  association list with unique keys, looked up with `List.lookup`.
* Go's `sort.Search` loop is given explicit fuel; fuel `j - i` (one unit
  per iteration, the interval shrinks every round) makes it total, and
  `searchLoop_spec` characterises the result for any sufficient fuel.
* A nil pointer is `Option.none`; a run-time panic (nil dereference) is
  modelled by the evaluator returning `none : Option Bool`.
* Logging calls have no effect on the decision and are dropped.
-/

namespace DaprConfig

/-- `AllowAccess` constant from the source. -/
def AllowAccess : String := "allow"

/-- `DenyAccess` constant from the source. -/
def DenyAccess : String := "deny"

/-- `AccessControlActionAllow` constant from the source. -/
def AccessControlActionAllow : String := "allow"

/-- Lexicographic comparison of character lists: models Go's `<` on
strings (byte-wise lexicographic, which agrees with code-point-wise
lexicographic on valid UTF-8). -/
def charListLt : List Char → List Char → Bool
  | [], [] => false
  | [], _ :: _ => true
  | _ :: _, [] => false
  | a :: as, b :: bs => if a < b then true else if b < a then false else charListLt as bs

/-- Go's `s < t` on strings. -/
def strLt (s t : String) : Bool := charListLt s.data t.data

/-- Go's `s <= t` on strings, as a proposition: `¬ (t < s)`. -/
def strLeP (s t : String) : Prop := strLt t s = false

instance : DecidableRel strLeP :=
  fun s t => inferInstanceAs (Decidable (strLt t s = false))

/-- Models `strings.ToLower` (character-wise; adequate for the ASCII
action literals the code compares against). -/
def toLowerGo (s : String) : String := String.mk (s.data.map Char.toLower)

/-- Models `strings.EqualFold` (case-insensitive string equality; on the
ASCII literals the code uses, folding is lower-casing). -/
def eqFold (a b : String) : Bool := toLowerGo a == toLowerGo b

/-- Models `strings.HasPrefix(s, pre)`: `s` begins with `pre`. -/
def hasPrefixGo (s pre : String) : Bool := pre.data.isPrefixOf s.data

/-- `SecretsScope` struct from the source. -/
structure SecretsScope where
  DefaultAccess : String
  StoreName : String
  AllowedSecrets : List String
  DeniedSecrets : List String
deriving Repr, DecidableEq

/-- The loop of Go's `sort.Search(n, f)` specialised as in
`sort.SearchStrings`: binary search narrowing `[i, j)` to the least index
`idx` with `¬ (s[idx] < key)`.  Go reads `s[h] >= key`, i.e.
`¬ (s[h] < key)`; `getD` with default `""` models the indexing (no
out-of-range access occurs while `j ≤ s.length`).  The loop runs while
`i < j` and shrinks `j - i` every iteration, so any fuel `≥ j - i` is
exact. -/
def searchLoop (s : List String) (key : String) : Nat → Nat → Nat → Nat
  | 0, i, _ => i
  | fuel + 1, i, j =>
    if i < j then
      let m := (i + j) / 2
      if strLt (s.getD m "") key then searchLoop s key fuel (m + 1) j
      else searchLoop s key fuel i m
    else i

/-- `sort.SearchStrings(s, key)` from the source's `containsKey`. -/
def searchStrings (s : List String) (key : String) : Nat :=
  searchLoop s key s.length 0 s.length

/-- `containsKey` from the source: binary search on a sorted list of
strings, then check the found slot. -/
def containsKey (s : List String) (key : String) : Bool :=
  let index := searchStrings s key
  index < s.length && s.getD index "" == key

/-- `SecretsScope.IsSecretAllowed` from the source. -/
def SecretsScope.IsSecretAllowed (c : SecretsScope) (key : String) : Bool :=
  -- By default set allow access for the secret store; deny if DefaultAccess
  -- case-insensitively equals "deny".
  let access : String := if eqFold c.DefaultAccess DenyAccess then DenyAccess else AllowAccess
  -- If the allowedSecrets list is not empty then it alone decides.
  if c.AllowedSecrets.length ≠ 0 then
    containsKey c.AllowedSecrets key
  else if containsKey c.DeniedSecrets key then
    false
  else
    access == AllowAccess

/-- The per-scope validity test inside `sortAndValidateSecretsConfiguration`:
`DefaultAccess` must be empty or case-insensitively `allow`/`deny`. -/
def validDefaultAccess (s : String) : Bool :=
  s == "" || eqFold s AllowAccess || eqFold s DenyAccess

/-- Models Go's `sort.Strings` (in-place lexicographic sort) on a list. -/
def sortStrings (l : List String) : List String :=
  l.insertionSort strLeP

/-- The loop of `sortAndValidateSecretsConfiguration`: `seen` is the string
set `set` of store names already processed; each scope is checked for a
repeated store name, then for a valid `DefaultAccess`, then its two secret
lists are sorted.  The Go function mutates `conf` in place and returns an
error or nil; here the transformed scope list is returned on success. -/
def sortAndValidateLoop (seen : List String) :
    List SecretsScope → Except String (List SecretsScope)
  | [] => .ok []
  | scope :: rest =>
    if seen.contains scope.StoreName then
      .error (scope.StoreName ++ " storeName is repeated in secrets configuration")
    else if !validDefaultAccess scope.DefaultAccess then
      .error ("defaultAccess " ++ scope.DefaultAccess ++ " can be either allow or deny")
    else
      match sortAndValidateLoop (scope.StoreName :: seen) rest with
      | .error e => .error e
      | .ok rest' =>
          .ok ({ scope with
                  AllowedSecrets := sortStrings scope.AllowedSecrets,
                  DeniedSecrets := sortStrings scope.DeniedSecrets } :: rest')

/-- `sortAndValidateSecretsConfiguration` from the source, acting on the
scope list `conf.Spec.Secrets.Scopes`. -/
def sortAndValidateSecretsConfiguration (scopes : List SecretsScope) :
    Except String (List SecretsScope) :=
  sortAndValidateLoop [] scopes

/-- `common.HTTPExtension_Verb` proto enum. -/
inductive HTTPVerb where
  | NONE | GET | HEAD | POST | PUT | DELETE | CONNECT | OPTIONS | TRACE
deriving Repr, DecidableEq

/-- The proto enum's `String()` method. -/
def HTTPVerb.str : HTTPVerb → String
  | .NONE => "NONE"
  | .GET => "GET"
  | .HEAD => "HEAD"
  | .POST => "POST"
  | .PUT => "PUT"
  | .DELETE => "DELETE"
  | .CONNECT => "CONNECT"
  | .OPTIONS => "OPTIONS"
  | .TRACE => "TRACE"

/-- `AppOperation` struct from the source. -/
structure AppOperation where
  Operation : String
  HTTPVerb : List String
  Action : String
deriving Repr, DecidableEq

/-- `AppPolicySpec` struct from the source. -/
structure AppPolicySpec where
  AppName : String
  DefaultAction : String
  TrustDomain : String
  AppOperationActions : List AppOperation
deriving Repr, DecidableEq

/-- `AccessControlList` struct from the source; the Go map
`map[string]AppPolicySpec` is an association list with unique keys. -/
structure AccessControlList where
  DefaultAction : String
  PolicySpec : List (String × AppPolicySpec)
deriving Repr, DecidableEq

/-- `SpiffeID` struct from the source (`namespace` is a Lean keyword, so the
field is `nspace`). -/
structure SpiffeID where
  trustDomain : String
  nspace : String
  appID : String
deriving Repr, DecidableEq

/-- `isActionAllowed` from the source. -/
def isActionAllowed (action : String) : Bool :=
  if toLowerGo action == AccessControlActionAllow then true else false

/-- The body of the loop over `policy.AppOperationActions` in
`IsOperationAllowedByAccessControlPolicy`: one rule either updates `action`
or leaves it unchanged.  Go's `strings.HasPrefix(policyOperation.Operation,
inputOperation)` tests that `policyOperation.Operation` starts with
`inputOperation`. -/
def applyOperationRule (httpVerb : HTTPVerb) (inputOperation : String)
    (action : String) (policyOperation : AppOperation) : String :=
  if hasPrefixGo policyOperation.Operation inputOperation then
    if httpVerb ≠ HTTPVerb.NONE then
      -- inner loop over the rule's verbs: the first verb equal to the
      -- request verb's string or to "*" sets action and breaks.
      if policyOperation.HTTPVerb.any (fun policyVerb =>
          policyVerb == httpVerb.str || policyVerb == "*") then
        policyOperation.Action
      else action
    else
      policyOperation.Action
  else action

/-- `IsOperationAllowedByAccessControlPolicy` from the source.  The result
`none` models a run-time panic: the function reads
`accessControlList.PolicySpec` (log dump) and `accessControlList.DefaultAction`
BEFORE its `accessControlList == nil` check, so a nil list is dereferenced and
the `return true` branch is unreachable. -/
def IsOperationAllowedByAccessControlPolicy (id : Option SpiffeID)
    (srcAppID : String) (operation : String) (httpVerb : HTTPVerb)
    (accessControlList : Option AccessControlList) : Option Bool :=
  match accessControlList with
  | none => none
  | some acl =>
    let action := acl.DefaultAction
    -- (the source's `if accessControlList == nil { return true }` sits here;
    -- it can never fire on a non-nil list)
    match acl.PolicySpec.lookup srcAppID with
    | none => some (isActionAllowed action)
    | some policy =>
      let action := policy.DefaultAction
      match id with
      | none =>
        -- spiffe id unavailable: apply the app-level default action
        some (isActionAllowed action)
      | some idv =>
        if policy.TrustDomain != "*" && policy.TrustDomain != idv.trustDomain then
          some false
        else
          let inputOperation := "/" ++ operation
          let action := policy.AppOperationActions.foldl
            (applyOperationRule httpVerb inputOperation) action
          some (isActionAllowed action)

/-- Model of a gRPC peer as seen by `TryGetAndParseSpiffeID`: transport
credential / certificate material is carried but (in this source) never
consulted. -/
structure Peer where
  addr : String
  authInfo : Option (List String)
deriving Repr, DecidableEq

/-- Models Go's `strings.Split(s, "/")`: the pieces of `s` around every
occurrence of `'/'` (adjacent separators yield empty pieces), accumulating
the current piece in `acc`. -/
def splitOnSlash : List Char → List Char → List String
  | [], acc => [String.mk acc.reverse]
  | c :: cs, acc =>
    if c = '/' then String.mk acc.reverse :: splitOnSlash cs []
    else splitOnSlash cs (c :: acc)

/-- `TryGetAndParseSpiffeID` from the source: the context either yields a
peer or not (`peer.FromContext`); on success the function ignores the peer,
uses the hard-coded string `"spiffe://a/ns/b/pythonapp"`, splits it on `"/"`
and reads parts 2, 4 and 5. -/
def TryGetAndParseSpiffeID (ctxPeer : Option Peer) : Except String SpiffeID :=
  match ctxPeer with
  | none => .error "could not retrieve spiffe id from the grpc context"
  | some _ =>
    let spiffeID := "spiffe://a/ns/b/pythonapp"
    let parts := splitOnSlash spiffeID.data []
    .ok { trustDomain := parts.getD 2 "", nspace := parts.getD 4 "",
          appID := parts.getD 5 "" }

/-- The condition under which one operation rule overrides the running
action, read off from the source's loop: the rule's `Operation` must start
with `"/" ++ operation` (note the direction of `strings.HasPrefix`), and
when a verb is given the rule's verb list must contain it or `"*"`. -/
def ruleMatches (httpVerb : HTTPVerb) (inputOperation : String)
    (policyOperation : AppOperation) : Bool :=
  hasPrefixGo policyOperation.Operation inputOperation &&
    (httpVerb == HTTPVerb.NONE ||
      policyOperation.HTTPVerb.any (fun policyVerb =>
        policyVerb == httpVerb.str || policyVerb == "*"))

theorem charListLt_nil_right : ∀ l : List Char, charListLt l [] = false := by
  intro l; cases l <;> rfl

theorem charListLt_irrefl : ∀ l : List Char, charListLt l l = false
  | [] => rfl
  | a :: as => by
    simp only [charListLt, lt_irrefl a, if_false]
    exact charListLt_irrefl as

theorem charListLt_trans : ∀ {a b c : List Char}, charListLt a b = true →
    charListLt b c = true → charListLt a c = true
  | [], _ :: _, _ :: _, _, _ => rfl
  | _, [], _, h1, _ => by rw [charListLt_nil_right] at h1; exact Bool.noConfusion h1
  | _, _ :: _, [], _, h2 => by rw [charListLt_nil_right] at h2; exact Bool.noConfusion h2
  | a :: as, b :: bs, c :: cs, h1, h2 => by
    simp only [charListLt] at h1 h2 ⊢
    rcases lt_trichotomy a b with hab | hab | hab
    · rcases lt_trichotomy b c with hbc | hbc | hbc
      · simp [lt_trans hab hbc]
      · subst hbc; simp [hab]
      · rw [if_neg (lt_asymm hbc), if_pos hbc] at h2
        exact Bool.noConfusion h2
    · subst hab
      rw [if_neg (lt_irrefl a), if_neg (lt_irrefl a)] at h1
      rcases lt_trichotomy a c with hac | hac | hac
      · simp [hac]
      · subst hac
        rw [if_neg (lt_irrefl a), if_neg (lt_irrefl a)] at h2
        simp only [if_neg (lt_irrefl a)]
        exact charListLt_trans h1 h2
      · rw [if_neg (lt_asymm hac), if_pos hac] at h2
        exact Bool.noConfusion h2
    · rw [if_neg (lt_asymm hab), if_pos hab] at h1
      exact Bool.noConfusion h1

theorem charListLt_antisymm : ∀ {a b : List Char}, charListLt a b = false →
    charListLt b a = false → a = b
  | [], [], _, _ => rfl
  | [], _ :: _, h1, _ => Bool.noConfusion h1
  | _ :: _, [], _, h2 => Bool.noConfusion h2
  | a :: as, b :: bs, h1, h2 => by
    simp only [charListLt] at h1 h2
    rcases lt_trichotomy a b with hab | hab | hab
    · rw [if_pos hab] at h1; exact Bool.noConfusion h1
    · subst hab
      rw [if_neg (lt_irrefl a), if_neg (lt_irrefl a)] at h1 h2
      rw [charListLt_antisymm h1 h2]
    · rw [if_neg (lt_asymm hab), if_pos hab] at h2; exact Bool.noConfusion h2

theorem strLt_irrefl (s : String) : strLt s s = false := charListLt_irrefl s.data

theorem strLt_trans {a b c : String} (h1 : strLt a b = true)
    (h2 : strLt b c = true) : strLt a c = true := charListLt_trans h1 h2

theorem strLt_antisymm {a b : String} (h1 : strLt a b = false)
    (h2 : strLt b a = false) : a = b := by
  cases a with
  | mk da =>
    cases b with
    | mk db =>
      have : da = db := charListLt_antisymm h1 h2
      rw [this]

theorem strLt_of_not_lt_of_lt {a b c : String} (hba : strLt b a = false)
    (hbc : strLt b c = true) : strLt a c = true := by
  cases hab : strLt a b with
  | true => exact strLt_trans hab hbc
  | false => rw [strLt_antisymm hab hba]; exact hbc

instance : IsTrans String strLeP := by
  constructor
  intro a b c h1 h2
  unfold strLeP at h1 h2 ⊢
  cases hca : strLt c a with
  | false => rfl
  | true =>
    cases hab : strLt a b with
    | true =>
      have h3 := strLt_trans hca hab
      rw [h2] at h3
      exact Bool.noConfusion h3
    | false =>
      have hab' := strLt_antisymm hab h1
      subst hab'
      rw [h2] at hca
      exact Bool.noConfusion hca

instance : IsTotal String strLeP := by
  constructor
  intro a b
  unfold strLeP
  cases hba : strLt b a with
  | false => exact Or.inl rfl
  | true =>
    cases hab : strLt a b with
    | false => exact Or.inr rfl
    | true =>
      have h3 := strLt_trans hab hba
      rw [strLt_irrefl a] at h3
      exact Bool.noConfusion h3


theorem searchLoop_spec (s : List String) (key : String)
    (hs : List.Pairwise strLeP s) :
    ∀ (n i j : Nat), j - i ≤ n → i ≤ j → j ≤ s.length →
    (∀ idx, idx < i → strLt (s.getD idx "") key = true) →
    (∀ idx, j ≤ idx → idx < s.length → strLt (s.getD idx "") key = false) →
    i ≤ searchLoop s key n i j ∧ searchLoop s key n i j ≤ j ∧
    (∀ idx, idx < searchLoop s key n i j → strLt (s.getD idx "") key = true) ∧
    (∀ idx, searchLoop s key n i j ≤ idx → idx < s.length →
      strLt (s.getD idx "") key = false) := by
  intro n
  induction n with
  | zero =>
    intro i j hji hij hlen h1 h2
    have hij' : i = j := by omega
    subst hij'
    exact ⟨le_refl i, le_refl i, h1, h2⟩
  | succ n ih =>
    intro i j hji hij hlen h1 h2
    simp only [searchLoop]
    by_cases hlt : i < j
    · simp only [hlt, if_true]
      have hmj : (i + j) / 2 < j := by omega
      have hmi : i ≤ (i + j) / 2 := by omega
      have hmlen : (i + j) / 2 < s.length := lt_of_lt_of_le hmj hlen
      cases hcmp : strLt (s.getD ((i + j) / 2) "") key with
      | true =>
        rw [if_pos rfl]
        refine (ih ((i + j) / 2 + 1) j (by omega) (by omega) hlen ?_ h2).imp ?_ id
        · intro idx hidx
          have hidxlen : idx < s.length := by omega
          rcases Nat.lt_or_ge idx ((i + j) / 2) with h | h
          · have hle := (List.pairwise_iff_getElem.mp hs) idx ((i + j) / 2) hidxlen hmlen h
            unfold strLeP at hle
            rw [List.getD_eq_getElem s "" hidxlen]
            rw [List.getD_eq_getElem s "" hmlen] at hcmp
            exact strLt_of_not_lt_of_lt hle hcmp
          · have heq : idx = (i + j) / 2 := by omega
            subst heq
            exact hcmp
        · intro h; omega
      | false =>
        rw [if_neg Bool.false_ne_true]
        refine (ih i ((i + j) / 2) (by omega) (by omega) (le_of_lt hmlen) h1 ?_).imp id ?_
        · intro idx hidx hidxlen
          cases hbad : strLt (s.getD idx "") key with
          | false => rfl
          | true =>
            exfalso
            rcases Nat.lt_or_ge ((i + j) / 2) idx with h | h
            · have hle := (List.pairwise_iff_getElem.mp hs) ((i + j) / 2) idx hmlen hidxlen h
              unfold strLeP at hle
              rw [List.getD_eq_getElem s "" hidxlen] at hbad
              have hkm := strLt_of_not_lt_of_lt hle hbad
              rw [List.getD_eq_getElem s "" hmlen] at hcmp
              rw [hcmp] at hkm
              exact Bool.noConfusion hkm
            · have heq : idx = (i + j) / 2 := by omega
              subst heq
              rw [hcmp] at hbad
              exact Bool.noConfusion hbad
        · exact fun h => ⟨le_trans h.1 (le_of_lt hmj), h.2⟩
    · simp only [hlt, if_false]
      have : i = j := by omega
      subst this
      exact ⟨le_refl i, le_refl i, h1, h2⟩

theorem containsKey_eq_mem (s : List String) (key : String)
    (hs : List.Pairwise strLeP s) : containsKey s key = true ↔ key ∈ s := by
  have spec := searchLoop_spec s key hs s.length 0 s.length (by omega) (Nat.zero_le _)
    (le_refl _) (fun idx h => absurd h (Nat.not_lt_zero idx))
    (fun idx h h' => absurd (lt_of_le_of_lt h h') (lt_irrefl s.length))
  obtain ⟨-, hrle, hbelow, habove⟩ := spec
  unfold containsKey searchStrings
  set r := searchLoop s key s.length 0 s.length with hr
  constructor
  · intro h
    rw [Bool.and_eq_true, decide_eq_true_eq, beq_iff_eq] at h
    obtain ⟨hrlen, heq⟩ := h
    rw [List.getD_eq_getElem s "" hrlen] at heq
    exact heq ▸ List.getElem_mem hrlen
  · intro hmem
    obtain ⟨idx, hidx, heq⟩ := List.mem_iff_getElem.mp hmem
    have hridx : r ≤ idx := by
      by_contra hc
      have hb := hbelow idx (not_le.mp hc)
      rw [List.getD_eq_getElem s "" hidx, heq] at hb
      rw [strLt_irrefl key] at hb
      exact Bool.noConfusion hb
    have hrlen : r < s.length := lt_of_le_of_lt hridx hidx
    have hkey_nlt : strLt (s.getD r "") key = false := habove r (le_refl r) hrlen
    have hrkey_nlt : strLt key (s.getD r "") = false := by
      rcases Nat.lt_or_ge r idx with h | h
      · have hle := (List.pairwise_iff_getElem.mp hs) r idx hrlen hidx h
        unfold strLeP at hle
        rw [heq] at hle
        rw [List.getD_eq_getElem s "" hrlen]
        exact hle
      · have heq' : r = idx := by omega
        subst heq'
        rw [List.getD_eq_getElem s "" hrlen, heq]
        exact strLt_irrefl key
    have hfound := strLt_antisymm hkey_nlt hrkey_nlt
    rw [Bool.and_eq_true, decide_eq_true_eq, beq_iff_eq]
    exact ⟨hrlen, hfound⟩


theorem applyOperationRule_eq (httpVerb : HTTPVerb) (inputOperation : String)
    (action : String) (op : AppOperation) :
    applyOperationRule httpVerb inputOperation action op =
      if ruleMatches httpVerb inputOperation op then op.Action else action := by
  unfold applyOperationRule ruleMatches
  cases hpre : hasPrefixGo op.Operation inputOperation with
  | false => simp
  | true =>
    cases hv : httpVerb == HTTPVerb.NONE with
    | true =>
      rw [beq_iff_eq] at hv
      subst hv
      simp
    | false =>
      have hne : httpVerb ≠ HTTPVerb.NONE := by
        intro h; subst h; simp at hv
      cases hany : op.HTTPVerb.any (fun policyVerb =>
          policyVerb == httpVerb.str || policyVerb == "*") with
      | true => simp [hne]
      | false => simp [hne]

theorem foldl_applyOperationRule_filter (httpVerb : HTTPVerb)
    (inputOperation : String) :
    ∀ (ops : List AppOperation) (action : String),
    ops.foldl (applyOperationRule httpVerb inputOperation) action =
      (ops.filter (ruleMatches httpVerb inputOperation)).foldl
        (fun _ op => op.Action) action
  | [], _ => rfl
  | op :: ops, action => by
    rw [List.foldl_cons, applyOperationRule_eq]
    cases hm : ruleMatches httpVerb inputOperation op with
    | true =>
      rw [if_pos rfl, List.filter_cons_of_pos hm, List.foldl_cons]
      exact foldl_applyOperationRule_filter httpVerb inputOperation ops op.Action
    | false =>
      rw [if_neg Bool.false_ne_true, List.filter_cons_of_neg (by simp [hm])]
      exact foldl_applyOperationRule_filter httpVerb inputOperation ops action

theorem foldl_const_action_getLast :
    ∀ (l : List AppOperation) (action : String) (h : l ≠ []),
    l.foldl (fun _ op => op.Action) action = (l.getLast h).Action
  | [], _, h => absurd rfl h
  | [op], action, _ => rfl
  | op :: op' :: ops, action, _ => by
    rw [List.foldl_cons]
    rw [foldl_const_action_getLast (op' :: ops) op.Action (List.cons_ne_nil op' ops)]
    rw [List.getLast_cons (List.cons_ne_nil op' ops)]


theorem validDefaultAccess_false_iff (s : String) :
    validDefaultAccess s = false ↔
      (s ≠ "" ∧ eqFold s AllowAccess = false ∧ eqFold s DenyAccess = false) := by
  unfold validDefaultAccess
  cases h1 : (s == "") <;> cases h2 : eqFold s AllowAccess <;>
    cases h3 : eqFold s DenyAccess <;> simp_all [beq_iff_eq]

theorem sortAndValidateLoop_ok_iff :
    ∀ (scopes : List SecretsScope) (seen : List String),
    (∃ l, sortAndValidateLoop seen scopes = Except.ok l) ↔
      ((scopes.map SecretsScope.StoreName).Nodup ∧
       (∀ nm ∈ scopes.map SecretsScope.StoreName, nm ∉ seen) ∧
       ∀ sc ∈ scopes, validDefaultAccess sc.DefaultAccess = true)
  | [], seen => by simp [sortAndValidateLoop]
  | sc :: rest, seen => by
    rw [sortAndValidateLoop]
    cases hseen : seen.contains sc.StoreName with
    | true =>
      rw [if_pos rfl]
      have hmem : sc.StoreName ∈ seen := by
        rw [List.contains_iff_exists_mem_beq] at hseen
        obtain ⟨b, hb, hbeq⟩ := hseen
        rw [beq_iff_eq] at hbeq
        exact hbeq ▸ hb
      constructor
      · rintro ⟨l, hl⟩; exact Except.noConfusion hl
      · rintro ⟨-, hns, -⟩
        exact absurd hmem (hns sc.StoreName (by simp))
    | false =>
      rw [if_neg Bool.false_ne_true]
      have hnmem : sc.StoreName ∉ seen := by
        intro hmem
        have : seen.contains sc.StoreName = true := by
          rw [List.contains_iff_exists_mem_beq]
          exact ⟨sc.StoreName, hmem, beq_self_eq_true _⟩
        rw [hseen] at this
        exact Bool.noConfusion this
      cases hvalid : validDefaultAccess sc.DefaultAccess with
      | false =>
        rw [if_pos (by rfl)]
        constructor
        · rintro ⟨l, hl⟩; exact Except.noConfusion hl
        · rintro ⟨-, -, hv⟩
          have := hv sc (by simp)
          rw [hvalid] at this
          exact Bool.noConfusion this
      | true =>
        rw [if_neg (by simp)]
        have ih := sortAndValidateLoop_ok_iff rest (sc.StoreName :: seen)
        constructor
        · rintro ⟨l, hl⟩
          cases hrec : sortAndValidateLoop (sc.StoreName :: seen) rest with
          | error e => rw [hrec] at hl; exact Except.noConfusion hl
          | ok rest' =>
            obtain ⟨hnd, hns, hv⟩ := ih.mp ⟨rest', hrec⟩
            refine ⟨?_, ?_, ?_⟩
            · rw [List.map_cons, List.nodup_cons]
              refine ⟨fun hin => ?_, hnd⟩
              have := hns sc.StoreName hin
              simp at this
            · intro nm hnm
              rw [List.map_cons, List.mem_cons] at hnm
              rcases hnm with h | h
              · exact h ▸ hnmem
              · have := hns nm h
                simp only [List.mem_cons, not_or] at this
                exact this.2
            · intro s hs
              rcases List.mem_cons.mp hs with h | h
              · rw [h]; exact hvalid
              · exact hv s h
        · rintro ⟨hnd, hns, hv⟩
          rw [List.map_cons, List.nodup_cons] at hnd
          have hrec : ∃ l, sortAndValidateLoop (sc.StoreName :: seen) rest = Except.ok l := by
            refine ih.mpr ⟨hnd.2, ?_, fun s hs => hv s (List.mem_cons_of_mem sc hs)⟩
            intro nm hnm
            simp only [List.mem_cons, not_or]
            refine ⟨?_, hns nm (List.mem_cons_of_mem _ hnm)⟩
            intro heq
            exact hnd.1 (heq ▸ hnm)
          obtain ⟨rest', hrest⟩ := hrec
          rw [hrest]
          exact ⟨_, rfl⟩

theorem sortAndValidateLoop_ok_sorted :
    ∀ (scopes : List SecretsScope) (seen : List String) (l : List SecretsScope),
    sortAndValidateLoop seen scopes = Except.ok l →
    ∀ sc ∈ l, List.Pairwise strLeP sc.AllowedSecrets ∧
      List.Pairwise strLeP sc.DeniedSecrets
  | [], seen, l, h => by
    rw [sortAndValidateLoop] at h
    cases h
    intro sc hsc
    exact absurd hsc (List.not_mem_nil sc)
  | sc :: rest, seen, l, h => by
    rw [sortAndValidateLoop] at h
    by_cases hseen : (seen.contains sc.StoreName : Prop)
    · rw [if_pos hseen] at h; exact Except.noConfusion h
    · rw [if_neg hseen] at h
      by_cases hvalid : ((!validDefaultAccess sc.DefaultAccess : Bool) : Prop)
      · rw [if_pos hvalid] at h; exact Except.noConfusion h
      · rw [if_neg hvalid] at h
        cases hrec : sortAndValidateLoop (sc.StoreName :: seen) rest with
        | error e => rw [hrec] at h; exact Except.noConfusion h
        | ok rest' =>
          rw [hrec] at h
          cases h
          intro s hs
          rcases List.mem_cons.mp hs with heq | hmem
          · subst heq
            constructor
            · exact List.sorted_insertionSort strLeP sc.AllowedSecrets
            · exact List.sorted_insertionSort strLeP sc.DeniedSecrets
          · exact sortAndValidateLoop_ok_sorted rest (sc.StoreName :: seen) rest' hrec s hmem



theorem foldl_applyOperationRule_eq_matchfold (httpVerb : HTTPVerb)
    (inputOperation : String) (ops : List AppOperation) (action : String) :
    ops.foldl (applyOperationRule httpVerb inputOperation) action =
      ops.foldl (fun action op =>
        if ruleMatches httpVerb inputOperation op then op.Action else action)
        action := by
  have hfun : applyOperationRule httpVerb inputOperation = fun action op =>
      if ruleMatches httpVerb inputOperation op then op.Action else action :=
    funext fun action => funext fun op =>
      applyOperationRule_eq httpVerb inputOperation action op
  rw [hfun]

/-- C1 (code_bug): the specification says an absent access-control list
yields `true` (fail-open), and the source's own
`if accessControlList == nil { return true }` branch shows the same
intent; but the function reads `accessControlList.PolicySpec` and
`accessControlList.DefaultAction` before that nil check, so with a nil
list every call panics on the nil dereference (modelled as `none`) instead
of returning `true`, for every identity, caller app ID, operation and
verb. -/
theorem IsOperationAllowed_nil_acl_panics (id : Option SpiffeID)
    (srcAppID operation : String) (httpVerb : HTTPVerb) :
    IsOperationAllowedByAccessControlPolicy id srcAppID operation httpVerb none
      = none := rfl

/-- C2 counterexample: with the rule `{pathPrefix "/a", no verbs, action
"allow"}` and operation `"ab"`, the rule's pathPrefix IS a string-prefix
of `"/" ++ "ab"`, so per the claim the rule applies and its action
(`allow`, under a deny default and verb NONE) would decide; the code's
`strings.HasPrefix(rule.Operation, "/"+operation)` tests the opposite
direction, rejects the rule, and denies. -/
theorem IsOperationAllowed_c2_counterexample :
    hasPrefixGo ("/" ++ "ab") "/a" = true ∧
    IsOperationAllowedByAccessControlPolicy (some ⟨"td1", "ns1", "caller"⟩)
      "appA" "ab" HTTPVerb.NONE
      (some ⟨"allow",
        [("appA", ⟨"appA", "deny", "*", [⟨"/a", [], "allow"⟩]⟩)]⟩)
      = some false := by
  constructor
  · rfl
  · rfl

/-- C2 (amended): when identity is present and the trust domain matches,
the evaluation is exactly a scan over the policy's operation rules in
which a rule may contribute its action if and only if `"/" ++ operation`
is a string-prefix of the rule's pathPrefix (the reverse of the claimed
direction), combined with the verb check (`ruleMatches`). -/
theorem IsOperationAllowed_matching_direction (acl : AccessControlList)
    (srcAppID operation : String) (httpVerb : HTTPVerb) (idv : SpiffeID)
    (policy : AppPolicySpec)
    (hfound : acl.PolicySpec.lookup srcAppID = some policy)
    (htd : policy.TrustDomain = "*" ∨ policy.TrustDomain = idv.trustDomain) :
    IsOperationAllowedByAccessControlPolicy (some idv) srcAppID operation
      httpVerb (some acl)
      = some (isActionAllowed (policy.AppOperationActions.foldl
          (fun action op =>
            if ruleMatches httpVerb ("/" ++ operation) op then op.Action
            else action)
          policy.DefaultAction)) := by
  have hcond : (policy.TrustDomain != "*" &&
      policy.TrustDomain != idv.trustDomain) = false := by
    rcases htd with h | h <;> simp [h]
  simp only [IsOperationAllowedByAccessControlPolicy, hfound, hcond]
  rw [if_neg Bool.false_ne_true]
  rw [foldl_applyOperationRule_eq_matchfold]

/-- Witness for C2's amended theorem at a concrete input. -/
theorem IsOperationAllowed_matching_direction_witness :
    (([("appA", ⟨"appA", "deny", "*", [⟨"/op1/sub", ["GET"], "allow"⟩]⟩)] :
        List (String × AppPolicySpec)).lookup "appA"
      = some ⟨"appA", "deny", "*", [⟨"/op1/sub", ["GET"], "allow"⟩]⟩) ∧
    IsOperationAllowedByAccessControlPolicy (some ⟨"td1", "ns1", "caller"⟩)
      "appA" "op1" HTTPVerb.GET
      (some ⟨"deny",
        [("appA", ⟨"appA", "deny", "*", [⟨"/op1/sub", ["GET"], "allow"⟩]⟩)]⟩)
      = some (isActionAllowed
          (([⟨"/op1/sub", ["GET"], "allow"⟩] : List AppOperation).foldl
            (fun action op =>
              if ruleMatches HTTPVerb.GET ("/" ++ "op1") op then op.Action
              else action)
            "deny")) :=
  ⟨rfl, IsOperationAllowed_matching_direction
    ⟨"deny", [("appA", ⟨"appA", "deny", "*", [⟨"/op1/sub", ["GET"], "allow"⟩]⟩)]⟩
    "appA" "op1" HTTPVerb.GET ⟨"td1", "ns1", "caller"⟩
    ⟨"appA", "deny", "*", [⟨"/op1/sub", ["GET"], "allow"⟩]⟩ rfl (Or.inl rfl)⟩

/-- C3 (confirmed): a present identity whose trust domain differs from a
non-wildcard policy trust domain is denied immediately, whatever the
operation rules and default actions say. -/
theorem IsOperationAllowed_trust_domain_mismatch_denies
    (acl : AccessControlList) (srcAppID operation : String)
    (httpVerb : HTTPVerb) (idv : SpiffeID) (policy : AppPolicySpec)
    (hfound : acl.PolicySpec.lookup srcAppID = some policy)
    (hstar : policy.TrustDomain ≠ "*")
    (hmismatch : policy.TrustDomain ≠ idv.trustDomain) :
    IsOperationAllowedByAccessControlPolicy (some idv) srcAppID operation
      httpVerb (some acl) = some false := by
  have hcond : (policy.TrustDomain != "*" &&
      policy.TrustDomain != idv.trustDomain) = true := by
    simp [hstar, hmismatch]
  simp only [IsOperationAllowedByAccessControlPolicy, hfound, hcond]
  simp

/-- Witness for C3 at a concrete input: the policy would allow everything
at operation level, yet the trust-domain mismatch denies. -/
theorem IsOperationAllowed_trust_domain_mismatch_denies_witness :
    (([("appA", ⟨"appA", "allow", "td1", [⟨"/op", ["*"], "allow"⟩]⟩)] :
        List (String × AppPolicySpec)).lookup "appA"
      = some ⟨"appA", "allow", "td1", [⟨"/op", ["*"], "allow"⟩]⟩) ∧
    ("td1" : String) ≠ "*" ∧ ("td1" : String) ≠ "td2" ∧
    IsOperationAllowedByAccessControlPolicy (some ⟨"td2", "ns1", "caller"⟩)
      "appA" "op" HTTPVerb.GET
      (some ⟨"allow",
        [("appA", ⟨"appA", "allow", "td1", [⟨"/op", ["*"], "allow"⟩]⟩)]⟩)
      = some false :=
  ⟨rfl, by decide, by decide,
    IsOperationAllowed_trust_domain_mismatch_denies
      ⟨"allow", [("appA", ⟨"appA", "allow", "td1", [⟨"/op", ["*"], "allow"⟩]⟩)]⟩
      "appA" "op" HTTPVerb.GET ⟨"td2", "ns1", "caller"⟩
      ⟨"appA", "allow", "td1", [⟨"/op", ["*"], "allow"⟩]⟩
      rfl (by decide) (by decide)⟩


/-- C4 (confirmed): the scan over a policy's operation rules never stops
at the first match; with at least one matching rule, the applied action is
exactly that of the LAST matching rule in declaration order. -/
theorem IsOperationAllowed_last_matching_rule_wins (acl : AccessControlList)
    (srcAppID operation : String) (httpVerb : HTTPVerb) (idv : SpiffeID)
    (policy : AppPolicySpec)
    (hfound : acl.PolicySpec.lookup srcAppID = some policy)
    (htd : policy.TrustDomain = "*" ∨ policy.TrustDomain = idv.trustDomain)
    (hne : policy.AppOperationActions.filter
      (ruleMatches httpVerb ("/" ++ operation)) ≠ []) :
    IsOperationAllowedByAccessControlPolicy (some idv) srcAppID operation
      httpVerb (some acl)
      = some (isActionAllowed
          ((policy.AppOperationActions.filter
            (ruleMatches httpVerb ("/" ++ operation))).getLast hne).Action) := by
  have hcond : (policy.TrustDomain != "*" &&
      policy.TrustDomain != idv.trustDomain) = false := by
    rcases htd with h | h <;> simp [h]
  simp only [IsOperationAllowedByAccessControlPolicy, hfound, hcond]
  rw [if_neg Bool.false_ne_true]
  rw [foldl_applyOperationRule_filter]
  rw [foldl_const_action_getLast _ _ hne]

/-- Witness for C4: two rules match `/op`; the first says deny, the last
says allow, and the decision is that of the last (`some true`). -/
theorem IsOperationAllowed_last_matching_rule_wins_witness :
    (([("appA", ⟨"appA", "deny", "*",
        [⟨"/op", [], "deny"⟩, ⟨"/op", [], "allow"⟩]⟩)] :
        List (String × AppPolicySpec)).lookup "appA"
      = some ⟨"appA", "deny", "*",
          [⟨"/op", [], "deny"⟩, ⟨"/op", [], "allow"⟩]⟩) ∧
    (([⟨"/op", [], "deny"⟩, ⟨"/op", [], "allow"⟩] : List AppOperation).filter
      (ruleMatches HTTPVerb.NONE ("/" ++ "op")) ≠ []) ∧
    IsOperationAllowedByAccessControlPolicy (some ⟨"td1", "ns1", "caller"⟩)
      "appA" "op" HTTPVerb.NONE
      (some ⟨"deny", [("appA", ⟨"appA", "deny", "*",
        [⟨"/op", [], "deny"⟩, ⟨"/op", [], "allow"⟩]⟩)]⟩)
      = some (isActionAllowed
          ((([⟨"/op", [], "deny"⟩, ⟨"/op", [], "allow"⟩] :
            List AppOperation).filter
              (ruleMatches HTTPVerb.NONE ("/" ++ "op"))).getLast
            (by decide)).Action) :=
  ⟨rfl, by decide,
    IsOperationAllowed_last_matching_rule_wins
      ⟨"deny", [("appA", ⟨"appA", "deny", "*",
        [⟨"/op", [], "deny"⟩, ⟨"/op", [], "allow"⟩]⟩)]⟩
      "appA" "op" HTTPVerb.NONE ⟨"td1", "ns1", "caller"⟩
      ⟨"appA", "deny", "*", [⟨"/op", [], "deny"⟩, ⟨"/op", [], "allow"⟩]⟩
      rfl (Or.inl rfl) (by decide)⟩

/-- C5 (confirmed): `isActionAllowed` returns `true` exactly when the
action lower-cased equals `"allow"`; every other string yields `false`. -/
theorem isActionAllowed_iff_lower_allow (action : String) :
    isActionAllowed action = true ↔ toLowerGo action = "allow" := by
  unfold isActionAllowed AccessControlActionAllow
  cases h : toLowerGo action == "allow" with
  | true => rw [beq_iff_eq] at h; simp [h]
  | false =>
    rw [if_neg Bool.false_ne_true]
    rw [beq_eq_false_iff_ne] at h
    simp [h]

/-- C6 (confirmed): with an absent identity and a policy mapped for the
caller, trust-domain and operation refinement are skipped and the result
is exactly `isActionAllowed` of the policy's own default action. -/
theorem IsOperationAllowed_absent_identity_app_default
    (acl : AccessControlList) (srcAppID operation : String)
    (httpVerb : HTTPVerb) (policy : AppPolicySpec)
    (hfound : acl.PolicySpec.lookup srcAppID = some policy) :
    IsOperationAllowedByAccessControlPolicy none srcAppID operation httpVerb
      (some acl) = some (isActionAllowed policy.DefaultAction) := by
  simp only [IsOperationAllowedByAccessControlPolicy, hfound]

/-- Witness for C6: the unauthenticated caller gets the app-level default
(`allow` here), not an unconditional deny. -/
theorem IsOperationAllowed_absent_identity_app_default_witness :
    (([("appA", ⟨"appA", "allow", "td1", [⟨"/op", ["GET"], "deny"⟩]⟩)] :
        List (String × AppPolicySpec)).lookup "appA"
      = some ⟨"appA", "allow", "td1", [⟨"/op", ["GET"], "deny"⟩]⟩) ∧
    IsOperationAllowedByAccessControlPolicy none "appA" "op" HTTPVerb.GET
      (some ⟨"deny", [("appA", ⟨"appA", "allow", "td1",
        [⟨"/op", ["GET"], "deny"⟩]⟩)]⟩)
      = some (isActionAllowed "allow") :=
  ⟨rfl, IsOperationAllowed_absent_identity_app_default
    ⟨"deny", [("appA", ⟨"appA", "allow", "td1", [⟨"/op", ["GET"], "deny"⟩]⟩)]⟩
    "appA" "op" HTTPVerb.GET
    ⟨"appA", "allow", "td1", [⟨"/op", ["GET"], "deny"⟩]⟩ rfl⟩

/-- C10 (confirmed): whenever a peer can be retrieved from the context,
`TryGetAndParseSpiffeID` returns the same fixed identity
`{trustDomain "a", namespace "b", appID "pythonapp"}`, regardless of the
peer's transport credential or certificate contents: any two peers yield
identical results. -/
theorem TryGetAndParseSpiffeID_constant (p q : Peer) :
    TryGetAndParseSpiffeID (some p) = TryGetAndParseSpiffeID (some q) ∧
    TryGetAndParseSpiffeID (some p)
      = Except.ok ⟨"a", "b", "pythonapp"⟩ := ⟨rfl, rfl⟩


/-- C7 (confirmed): with a non-empty sorted allow-list, `IsSecretAllowed`
returns `true` exactly for keys in that list; the deny-list and the
default access (both universally quantified here) have no influence. -/
theorem IsSecretAllowed_allowlist_authoritative
    (defaultAccessVal storeNameVal key : String)
    (allowedList deniedList : List String)
    (hne : allowedList ≠ [])
    (hsorted : List.Pairwise strLeP allowedList) :
    SecretsScope.IsSecretAllowed
      ⟨defaultAccessVal, storeNameVal, allowedList, deniedList⟩ key = true
      ↔ key ∈ allowedList := by
  unfold SecretsScope.IsSecretAllowed
  have hlen : allowedList.length ≠ 0 := by
    cases allowedList with
    | nil => exact absurd rfl hne
    | cons a as => simp
  rw [if_pos hlen]
  exact containsKey_eq_mem allowedList key hsorted

/-- Witness for C7 at a concrete scope: the key in the allow-list is
allowed even though it is also denied by `deniedSecrets` and the default
access is `deny`. -/
theorem IsSecretAllowed_allowlist_authoritative_witness :
    ((["akey", "bkey"] : List String) ≠ [] ∧
      List.Pairwise strLeP ["akey", "bkey"]) ∧
    (SecretsScope.IsSecretAllowed
        ⟨"deny", "store1", ["akey", "bkey"], ["bkey"]⟩ "bkey" = true
      ↔ "bkey" ∈ (["akey", "bkey"] : List String)) :=
  ⟨⟨by decide, by decide⟩,
    IsSecretAllowed_allowlist_authoritative "deny" "store1" "bkey"
      ["akey", "bkey"] ["bkey"] (by decide) (by decide)⟩

/-- C8 counterexample: with both lists empty and `defaultAccess = "DENY"`,
the code's `strings.EqualFold` comparison denies (`false`), while the
claim's exact comparison `defaultAccess != "deny"` predicts `true`. -/
theorem IsSecretAllowed_c8_counterexample :
    SecretsScope.IsSecretAllowed ⟨"DENY", "store1", [], []⟩ "key1" = false ∧
    ("DENY" : String) ≠ "deny" := by
  constructor
  · rfl
  · decide

/-- C8 (amended): with an empty allow-list and a sorted deny-list, a key
in the deny-list is refused; and with both lists empty the result is
`true` iff the default access is NOT case-insensitively equal to `"deny"`
(the code compares with `strings.EqualFold`, not exact equality). -/
theorem IsSecretAllowed_denylist_and_default
    (defaultAccessVal storeNameVal key : String) (deniedList : List String)
    (hsorted : List.Pairwise strLeP deniedList) :
    (key ∈ deniedList →
      SecretsScope.IsSecretAllowed
        ⟨defaultAccessVal, storeNameVal, [], deniedList⟩ key = false) ∧
    SecretsScope.IsSecretAllowed
      ⟨defaultAccessVal, storeNameVal, [], []⟩ key
      = !(eqFold defaultAccessVal "deny") := by
  constructor
  · intro hmem
    unfold SecretsScope.IsSecretAllowed
    rw [if_neg (by simp)]
    rw [if_pos ((containsKey_eq_mem deniedList key hsorted).mpr hmem)]
  · unfold SecretsScope.IsSecretAllowed
    rw [if_neg (by simp)]
    rw [if_neg (by rw [show containsKey [] key = false from rfl]; exact Bool.false_ne_true)]
    cases h : eqFold defaultAccessVal DenyAccess with
    | true =>
      rw [if_pos rfl]
      have h' : eqFold defaultAccessVal "deny" = true := h
      rw [h']
      rfl
    | false =>
      rw [if_neg Bool.false_ne_true]
      have h' : eqFold defaultAccessVal "deny" = false := h
      rw [h']
      rfl

/-- Witness for C8's amended theorem: `"dkey"` in the deny-list is
refused, and with both lists empty the default `"Allow"` admits. -/
theorem IsSecretAllowed_denylist_and_default_witness :
    List.Pairwise strLeP ["dkey"] ∧
    (("dkey" ∈ (["dkey"] : List String) →
      SecretsScope.IsSecretAllowed ⟨"Allow", "store1", [], ["dkey"]⟩ "dkey"
        = false) ∧
     SecretsScope.IsSecretAllowed ⟨"Allow", "store1", [], []⟩ "dkey"
       = !(eqFold "Allow" "deny")) :=
  ⟨by decide,
    IsSecretAllowed_denylist_and_default "Allow" "store1" "dkey" ["dkey"]
      (by decide)⟩

/-- C9 (confirmed): validation of a scope list returns an error exactly
when two scopes share a store name or some scope's default access is
non-empty and not case-insensitively `allow`/`deny`; on success every
returned scope carries lexicographically sorted allow/deny lists. -/
theorem sortAndValidate_error_iff_and_sorts (scopes : List SecretsScope) :
    ((∃ e, sortAndValidateSecretsConfiguration scopes = Except.error e) ↔
      (¬ (scopes.map SecretsScope.StoreName).Nodup ∨
        ∃ sc ∈ scopes, sc.DefaultAccess ≠ "" ∧
          eqFold sc.DefaultAccess AllowAccess = false ∧
          eqFold sc.DefaultAccess DenyAccess = false)) ∧
    ∀ l, sortAndValidateSecretsConfiguration scopes = Except.ok l →
      ∀ sc ∈ l, List.Pairwise strLeP sc.AllowedSecrets ∧
        List.Pairwise strLeP sc.DeniedSecrets := by
  constructor
  · have hok := sortAndValidateLoop_ok_iff scopes []
    simp only [List.not_mem_nil, not_false_iff, implies_true, true_and] at hok
    have herr : (∃ e, sortAndValidateSecretsConfiguration scopes
        = Except.error e) ↔
        ¬ ∃ l, sortAndValidateLoop [] scopes = Except.ok l := by
      unfold sortAndValidateSecretsConfiguration
      cases hres : sortAndValidateLoop [] scopes with
      | error e =>
        constructor
        · rintro - ⟨l, hl⟩; exact Except.noConfusion hl
        · intro _; exact ⟨e, rfl⟩
      | ok l =>
        constructor
        · rintro ⟨e, he⟩; exact Except.noConfusion he
        · intro h; exact absurd ⟨l, rfl⟩ h
    rw [herr, hok]
    rw [not_and_or]
    constructor
    · rintro (h | h)
      · exact Or.inl h
      · right
        rw [not_forall] at h
        obtain ⟨sc, hsc⟩ := h
        rw [Classical.not_imp] at hsc
        refine ⟨sc, hsc.1, ?_⟩
        rw [← validDefaultAccess_false_iff]
        cases hv : validDefaultAccess sc.DefaultAccess with
        | false => rfl
        | true => exact absurd hv hsc.2
    · rintro (h | ⟨sc, hmem, htriple⟩)
      · exact Or.inl h
      · right
        rw [not_forall]
        refine ⟨sc, ?_⟩
        rw [Classical.not_imp]
        refine ⟨hmem, ?_⟩
        rw [← validDefaultAccess_false_iff] at htriple
        rw [htriple]
        exact Bool.false_ne_true
  · intro l hl
    exact sortAndValidateLoop_ok_sorted scopes [] l hl

/-- Witness for C9: a single valid scope validates and its lists come
back sorted. -/
theorem sortAndValidate_error_iff_and_sorts_witness :
    List.Pairwise strLeP
      (SecretsScope.AllowedSecrets ⟨"", "s1", ["akey", "bkey"], []⟩) ∧
    List.Pairwise strLeP
      (SecretsScope.DeniedSecrets ⟨"", "s1", ["akey", "bkey"], []⟩) :=
  (sortAndValidate_error_iff_and_sorts
      [⟨"", "s1", ["bkey", "akey"], []⟩]).2
    [⟨"", "s1", ["akey", "bkey"], []⟩] rfl
    ⟨"", "s1", ["akey", "bkey"], []⟩ (List.mem_singleton.mpr rfl)

end DaprConfig
